import Mathlib

/- Shallow embedding of the TrueChain engineering code: the snail PoW sealer
   (minerva, etrue/protocol.go second part), the fruit pool (core/snail_pool.go)
   and the committee election engine (consensus/election/election.go).
   Go machine integers and big.Int values are modelled as Nat (or Int where a
   Go big.Int subtraction can go negative); Go maps keyed by a hash are
   modelled as association lists with Nat keys. -/

namespace KV

/-- Lookup in an association list, mirroring a Go map read. -/
def mapGet {β : Type} : List (Nat × β) → Nat → Option β
  | [], _ => none
  | (k', v) :: rest, k => if k' = k then some v else mapGet rest k

/-- The key set of an association list. -/
def keys {β : Type} (m : List (Nat × β)) : List Nat :=
  m.map Prod.fst

/-- Deletion of a key, mirroring Go delete(m, k). -/
def mapErase {β : Type} (m : List (Nat × β)) (k : Nat) : List (Nat × β) :=
  m.filter (fun p => decide (p.1 ≠ k))

/-- Assignment m[k] = v, mirroring a Go map write (overwrites any old entry). -/
def mapInsert {β : Type} (m : List (Nat × β)) (k : Nat) (v : β) : List (Nat × β) :=
  mapErase m k ++ [(k, v)]

end KV

open KV

namespace Minerva

/-- Snail block header fields used by mineSnail (etrue/protocol.go, minerva part). -/
structure SnailHeader where
  difficulty : Nat
  fruitDifficulty : Nat
  fastNumber : Nat
  nonce : Nat
  mixDigest : Nat
  fruit : Bool
deriving DecidableEq

/-- Modelled from the spec: the minerva constant maxUint128 is declared outside
the given sources; the spec states both mining targets as floor(2^128 / D). -/
def maxUint128 : Nat := 2 ^ 128

/-- One nonce attempt of mineSnail: given the candidate block's fruit list
(`none` models a nil Fruits() slice), the header template and the truehash
digest/result for this nonce, it returns the sealed header sent on the found
channel, or none when this nonce produces nothing.  result[:16] is the high
128 bits of the 256-bit result, result[16:] the low 128 bits. -/
def mineSnailStep (fruits : Option (List Nat)) (header : SnailHeader)
    (digest result nonce : Nat) : Option SnailHeader :=
  if result / 2 ^ 128 ≤ maxUint128 / header.difficulty then
    if fruits.isSome then
      some { header with nonce := nonce, mixDigest := digest, fruit := false }
    else
      none
  else
    if header.fastNumber ≠ 0 then
      if result % 2 ^ 128 ≤ maxUint128 / header.fruitDifficulty then
        some { header with nonce := nonce, mixDigest := digest, fruit := true }
      else none
    else none

/-- Concrete header used to witness the sealer theorem. -/
def hdrW : SnailHeader :=
  { difficulty := 1, fruitDifficulty := 1, fastNumber := 0,
    nonce := 0, mixDigest := 0, fruit := true }

/-- The sealed header mineSnailStep emits for hdrW at digest 3, nonce 9. -/
def hdrWSealed : SnailHeader :=
  { difficulty := 1, fruitDifficulty := 1, fastNumber := 0,
    nonce := 9, mixDigest := 3, fruit := false }

/-- Header of a candidate that carries fruits and also references a fast block:
the block target is 1 (difficulty 2^128) while the fruit target is 2^128. -/
def hdrCX : SnailHeader :=
  { difficulty := 2 ^ 128, fruitDifficulty := 1, fastNumber := 1,
    nonce := 0, mixDigest := 0, fruit := false }

/-- The fruit seal the loop emits for hdrCX even though its fruit list is
non-empty (high half 5 misses the block target, low half 0 meets the fruit one). -/
def hdrCXSealed : SnailHeader :=
  { difficulty := 2 ^ 128, fruitDifficulty := 1, fastNumber := 1,
    nonce := 5, mixDigest := 0, fruit := true }

end Minerva

namespace SnailPool

/-- The fruit fields used by the snail pool (core/snail_pool.go).  signs stands
for the fruit's PbftSign list, hash for the fruit's own block hash. -/
structure Fruit where
  fastHash : Nat
  fastNumber : Nat
  difficulty : Nat
  fruitDifficulty : Nat
  hash : Nat
  signHash : Nat
  signs : Nat
deriving DecidableEq

/-- Association map from fast hash to fruit. -/
abbrev FruitMap := List (Nat × Fruit)

/-- The two pool maps: allFruits and fruitPending, both keyed by FastHash. -/
structure PoolState where
  allFruits : FruitMap
  fruitPending : FruitMap
deriving DecidableEq

/-- Errors produced by pool admission and validation. -/
inductive PoolErr where
  | exceedNumber
  | notExist
  | invalidSign
  | snailHeightNotYet
  | otherValidation
deriving DecidableEq

/-- appendFruit (snail_pool.go lines 220-234): reject with ErrExceedNumber once
allFruits holds FruitCount entries, otherwise store under the fast hash and,
when the append flag is set, also mark pending. -/
def appendFruit (cap : Nat) (s : PoolState) (fruit : Fruit) (app : Bool) :
    PoolState × Option PoolErr :=
  if cap ≤ s.allFruits.length then
    (s, some PoolErr.exceedNumber)
  else
    ({ allFruits := mapInsert s.allFruits fruit.fastHash fruit,
       fruitPending :=
         if app then mapInsert s.fruitPending fruit.fastHash fruit
         else s.fruitPending },
     none)

/-- insertRestFruits (lines 465-482): re-inject reorg fruits into both maps;
the fast-block lookup in the loop body has no effect.  No cap check is done. -/
def insertRestFruits (s : PoolState) (reinject : List Fruit) : PoolState :=
  reinject.foldl
    (fun st f =>
      { allFruits := mapInsert st.allFruits f.fastHash f,
        fruitPending := mapInsert st.fruitPending f.fastHash f })
    s

/-- removeWithLock (lines 374-392): with maxFbNumber the fast number of the last
fruit of the new head block, delete from both maps every pooled fruit whose
fast number is at most maxFbNumber (deletion is driven by the allFruits entry). -/
def removeWithLock (s : PoolState) (fruits : List Fruit) : PoolState :=
  match fruits.getLast? with
  | none => s
  | some lastF =>
    { allFruits :=
        s.allFruits.filter (fun p => decide (lastF.fastNumber < p.2.fastNumber)),
      fruitPending :=
        s.fruitPending.filter (fun p =>
          match mapGet s.allFruits p.1 with
          | some f => decide (lastF.fastNumber < f.fastNumber)
          | none => true) }

/-- Whether removeUnfreshFruit keeps a fruit: the freshness check must pass or
fail with the tolerated ErrSnailHeightNotYet. -/
def keepFresh (fresh : Fruit → Option PoolErr) (f : Fruit) : Bool :=
  match fresh f with
  | none => true
  | some e => decide (e = PoolErr.snailHeightNotYet)

/-- removeUnfreshFruit (lines 485-499): drop from both maps every allFruits
entry whose VerifyFreshness result is an error other than ErrSnailHeightNotYet. -/
def removeUnfreshFruit (fresh : Fruit → Option PoolErr) (s : PoolState) : PoolState :=
  { allFruits := s.allFruits.filter (fun p => keepFresh fresh p.2),
    fruitPending :=
      s.fruitPending.filter (fun p =>
        match mapGet s.allFruits p.1 with
        | some f => keepFresh fresh f
        | none => true) }

/-- RemovePendingFruitByFastHash (lines 501-509): delete the hash from both maps. -/
def removePendingFruitByFastHash (s : PoolState) (h : Nat) : PoolState :=
  { allFruits := mapErase s.allFruits h,
    fruitPending := mapErase s.fruitPending h }

/-- The chain state and external validators the pool reads:  the current snail
head (number and fruit list), the current fast head number, fast block lookup,
the consensus validator ValidateFruit, and types.CalcSignHash. -/
structure ChainEnv where
  headSnailNumber : Nat
  headSnailFruits : List Fruit
  currentFastNumber : Nat
  fastBlockExists : Nat → Nat → Bool
  validateFruitEngine : Fruit → Option PoolErr
  calcSignHash : Nat → Nat

/-- Body of addFruit after the head-block freshness drop (lines 247-294):
future fruits go to allFruits only; an unknown fast block is ErrNotExist; a
duplicate fast hash is resolved by difficulty then lower hash; otherwise the
validator decides, with ErrSnailHeightNotYet stored as all-only. -/
def addFruitBody (env : ChainEnv) (cap : Nat) (s : PoolState) (fruit : Fruit) :
    PoolState × Option PoolErr :=
  if env.currentFastNumber < fruit.fastNumber then
    appendFruit cap s fruit false
  else if env.fastBlockExists fruit.fastHash fruit.fastNumber then
    match mapGet s.allFruits fruit.fastHash with
    | some f =>
      match env.validateFruitEngine fruit with
      | some e => (s, some e)
      | none =>
        if fruit.difficulty < f.difficulty then (s, none)
        else if fruit.difficulty = f.difficulty then
          if f.hash ≤ fruit.hash then (s, none)
          else appendFruit cap s fruit true
        else appendFruit cap s fruit true
    | none =>
      match env.validateFruitEngine fruit with
      | some e =>
        if e = PoolErr.snailHeightNotYet then appendFruit cap s fruit false
        else (s, some e)
      | none => appendFruit cap s fruit true
  else
    (s, some PoolErr.notExist)

/-- addFruit (lines 237-295).  When the snail head number is positive the code
indexes the head block's last fruit without an emptiness check; the outer none
models that panic.  A fruit whose fast number does not exceed the head block's
last fast number is silently dropped. -/
def addFruit (env : ChainEnv) (cap : Nat) (s : PoolState) (fruit : Fruit) :
    Option (PoolState × Option PoolErr) :=
  if 0 < env.headSnailNumber then
    match env.headSnailFruits.getLast? with
    | none => none
    | some lf =>
      if fruit.fastNumber ≤ lf.fastNumber then some (s, none)
      else some (addFruitBody env cap s fruit)
  else some (addFruitBody env cap s fruit)

/-- validateFruit (lines 614-637): only the signature-hash integrity check is
live; the freshness and header checks are commented out in the source. -/
def validateFruit (env : ChainEnv) (fruit : Fruit) : Option PoolErr :=
  if env.calcSignHash fruit.signs = fruit.signHash then none
  else some PoolErr.invalidSign

/-- AddRemoteFruits (lines 527-544) combined with the pool loop (lines 329-332):
each fruit is integrity-checked and its error recorded at its index; valid
fruits are handed to the single-writer loop, which calls addFruit and DISCARDS
its return value, so admission errors never reach the returned slice. -/
def addRemoteFruits (env : ChainEnv) (cap : Nat) :
    List Fruit → PoolState → Option (PoolState × List (Option PoolErr))
  | [], s => some (s, [])
  | fruit :: rest, s =>
    match validateFruit env fruit with
    | some e =>
      match addRemoteFruits env cap rest s with
      | none => none
      | some (s', errs) => some (s', some e :: errs)
    | none =>
      match addFruit env cap s fruit with
      | none => none
      | some (s', _dropped) =>
        match addRemoteFruits env cap rest s' with
        | none => none
        | some (s'', errs) => some (s'', none :: errs)

/-- One pool-state mutation.  The Bool index tells whether reorg re-injection
(insertRestFruits) is among the allowed operations. -/
inductive PoolStep (cap : Nat) : Bool → PoolState → PoolState → Prop
  | append (b : Bool) (s : PoolState) (f : Fruit) (app : Bool) :
      PoolStep cap b s (appendFruit cap s f app).1
  | reinject (s : PoolState) (l : List Fruit) :
      PoolStep cap true s (insertRestFruits s l)
  | removeIncluded (b : Bool) (s : PoolState) (fruits : List Fruit) :
      PoolStep cap b s (removeWithLock s fruits)
  | removeUnfresh (b : Bool) (s : PoolState) (fresh : Fruit → Option PoolErr) :
      PoolStep cap b s (removeUnfreshFruit fresh s)
  | removePending (b : Bool) (s : PoolState) (h : Nat) :
      PoolStep cap b s (removePendingFruitByFastHash s h)

/-- Pool states reachable from the empty pool by the given operations. -/
inductive PoolReach (cap : Nat) (b : Bool) : PoolState → Prop
  | init : PoolReach cap b { allFruits := [], fruitPending := [] }
  | step {s t : PoolState} : PoolReach cap b s → PoolStep cap b s t → PoolReach cap b t

/-- The pending map's keys are a subset of the allFruits keys. -/
def PendSubAll (s : PoolState) : Prop :=
  ∀ k, k ∈ keys s.fruitPending → k ∈ keys s.allFruits

/-- Concrete fruits and environments for witnesses and counterexamples. -/
def cf1 : Fruit :=
  { fastHash := 1, fastNumber := 5, difficulty := 1, fruitDifficulty := 1,
    hash := 1, signHash := 0, signs := 0 }

def cf2 : Fruit :=
  { fastHash := 2, fastNumber := 6, difficulty := 1, fruitDifficulty := 1,
    hash := 2, signHash := 0, signs := 0 }

def envC3 : ChainEnv :=
  { headSnailNumber := 0, headSnailFruits := [], currentFastNumber := 0,
    fastBlockExists := fun _ _ => true,
    validateFruitEngine := fun _ => none,
    calcSignHash := fun n => n }

def envC4 : ChainEnv :=
  { headSnailNumber := 0, headSnailFruits := [], currentFastNumber := 10,
    fastBlockExists := fun _ _ => true,
    validateFruitEngine := fun _ => none,
    calcSignHash := fun n => n }

def gC4 : Fruit :=
  { fastHash := 7, fastNumber := 3, difficulty := 1, fruitDifficulty := 1,
    hash := 5, signHash := 0, signs := 0 }

def fC4 : Fruit :=
  { fastHash := 7, fastNumber := 3, difficulty := 2, fruitDifficulty := 1,
    hash := 9, signHash := 0, signs := 0 }

def sC4 : PoolState := { allFruits := [(7, gC4)], fruitPending := [] }

end SnailPool

namespace Election

/-- The committee record fields used by the election window arithmetic
(consensus/election/election.go). -/
structure CommitteeC5 where
  id : Nat
  firstElectionNumber : Nat
  lastElectionNumber : Nat
  beginFastNumber : Nat
  switchCheckNumber : Nat
deriving DecidableEq

/-- The end of the election snail window for a committee number, as computed
in getCommittee (line 416): lastSnailNumber - SnailConfirmInterval with
lastSnailNumber = committeeNumber * ElectionPeriodNumber. -/
def endElectionNumberOf (ep sci k : Nat) : Nat := k * ep - sci

/-- The begin of the election snail window (getCommittee lines 436-439):
endElection - ElectionPeriodNumber + 1, clamped up to 1 when nonpositive. -/
def beginElectionNumberOf (ep endE : Nat) : Nat :=
  if endE + 1 ≤ ep then 1 else endE + 1 - ep

/-- The genesis committee returned by getCommittee (lines 420-433). -/
def genesisCommitteeC5 (ep : Nat) : CommitteeC5 :=
  { id := 0, firstElectionNumber := 0, lastElectionNumber := 0,
    beginFastNumber := 1, switchCheckNumber := ep }

/-- The committee record getCommittee builds for committee number k in its
final branch (lines 493-505): the switchCheckNumber field is
lastSnailNumber + ElectionPeriodNumber = (k+1) * ElectionPeriodNumber.
lastFast abstracts getLastNumber of the election window. -/
def committeeOfPeriod (ep sci k lastFast : Nat) : CommitteeC5 :=
  { id := k,
    firstElectionNumber := beginElectionNumberOf ep (endElectionNumberOf ep sci k),
    lastElectionNumber := endElectionNumberOf ep sci k,
    beginFastNumber := lastFast + 1,
    switchCheckNumber := k * ep + ep }

/-- The snail-head branch of the election loop (lines 1132-1170): when the new
snail head number equals the current committee's switchCheckNumber, elect the
next committee with id switchCheckNumber / ElectionPeriodNumber over the window
ending SnailConfirmInterval blocks earlier; otherwise nothing happens.
lastFastNumber abstracts getLastNumber of that window. -/
def loopElectionStep (ep sci : Nat) (cur : CommitteeC5)
    (snailHeadNumber lastFastNumber : Nat) : Option CommitteeC5 :=
  if cur.switchCheckNumber = snailHeadNumber then
    let snailEndNumber := snailHeadNumber - sci
    let snailStartNumber := if snailEndNumber < ep then 1 else snailEndNumber - ep + 1
    some { id := cur.switchCheckNumber / ep,
           firstElectionNumber := snailStartNumber,
           lastElectionNumber := snailEndNumber,
           beginFastNumber := lastFastNumber + 1,
           switchCheckNumber := cur.switchCheckNumber + ep }
  else none

/-- The next committee elected from the genesis committee at snail head 100
with period 100 and confirm interval 10 (used as a concrete input). -/
def c1Elected : CommitteeC5 :=
  { id := 1, firstElectionNumber := 1, lastElectionNumber := 90,
    beginFastNumber := 8, switchCheckNumber := 200 }

/-- A committee-id record for updateMembers (lines 958-998). -/
structure CommitteeU where
  id : Nat
deriving DecidableEq

/-- Outcome of the committee selection at the top of updateMembers. -/
inductive UpdResult where
  | nilPanic
  | selected (c : CommitteeU)
  | warnReject
deriving DecidableEq

/-- The committee selection in updateMembers (lines 971-978): the current
committee is checked first; otherwise the code reads e.nextCommittee.id, a nil
dereference (modelled as nilPanic) when no next committee exists; only when a
next committee exists and neither id matches is the switch info rejected with
a warning. -/
def updateMembersSelect (cur : CommitteeU) (next : Option CommitteeU) (cid : Nat) :
    UpdResult :=
  if cid = cur.id then UpdResult.selected cur
  else
    next.elim UpdResult.nilPanic
      (fun n => if cid = n.id then UpdResult.selected n else UpdResult.warnReject)

/-- getLastNumber (lines 786-802).  Blocks are represented by the list of their
fruits' fast numbers; the outer none models the index-out-of-range panic on
fruits[len(fruits)-1] when the end-election block has no fruits. -/
def getLastNumber (getBlockFruits : Nat → Option (List Nat))
    (switchoverNumber beginSnail endSnail : Nat) : Option (Option Nat) :=
  match getBlockFruits beginSnail with
  | none => some none
  | some _ =>
    match getBlockFruits endSnail with
    | none => some none
    | some fruits =>
      match fruits.getLast? with
      | none => none
      | some lastFruitNumber => some (some (lastFruitNumber + switchoverNumber))

end Election

namespace ElectionCore

/-- Committee member flag (types.StateUnusedFlag / StateUsedFlag / StateRemovedFlag). -/
inductive MFlag where
  | unused
  | used
  | removedM
deriving DecidableEq

/-- Committee member type (types.TypeFixed zero value / TypeWorked / TypeBack). -/
inductive MType where
  | dtype
  | worked
  | back
deriving DecidableEq

structure CommitteeMember where
  coinbase : Nat
  publickey : Nat
  flag : MFlag
  mtype : MType
deriving DecidableEq

structure ElectionCommittee where
  Members : List CommitteeMember
  Backups : List CommitteeMember
deriving DecidableEq

/-- The member mutation applied to every elected member (election.go 879-882). -/
def setWorked (m : CommitteeMember) : CommitteeMember :=
  { m with flag := MFlag.used, mtype := MType.worked }

/-- The member mutation applied to every backup (election.go 883-885). -/
def setBack (m : CommitteeMember) : CommitteeMember :=
  { m with mtype := MType.back }

/-- The member/backup split of electCommittee (lines 864-895), applied to the
drawn member list: split at MinimumCommitteeNumber when more were drawn, set
flags and types, then either append the default members to the backups (at
least 4 members) or fall back to the genesis committee as members. -/
def electCommitteeSplit (genesisCommittee defaultMembers drawn : List CommitteeMember)
    (minimum : Nat) : ElectionCommittee :=
  let ms := if minimum < drawn.length then drawn.take minimum else drawn
  let bs := if minimum < drawn.length then drawn.drop minimum else []
  let ms2 := ms.map setWorked
  let bs2 := bs.map setBack
  if 4 ≤ ms2.length then { Members := ms2, Backups := bs2 ++ defaultMembers }
  else { Members := genesisCommittee, Backups := bs2 }

/-- The fruit fields read by getCandinates: the ToElect flag, the recovered
public key (none models a GetPubKey error) and the header handed to
engine.GetDifficulty. -/
structure FruitE where
  toElect : Bool
  pubkey : Option Nat
  coinbase : Nat
  headerId : Nat
deriving DecidableEq

structure SnailBlockE where
  hash : Nat
  fruits : List FruitE
deriving DecidableEq

/-- The fixed cryptographic and consensus functions the election uses:
Keccak256Hash of the concatenated window hashes, Keccak256Hash of a round seed,
crypto.PubkeyToAddress, and engine.GetDifficulty (actual, base). -/
structure ElectFns where
  keccakSeed : List Nat → Nat
  keccakRound : Nat → Nat
  pubkeyToAddress : Nat → Nat
  getDifficulty : Nat → Nat × Nat

/-- candidateMember (election.go lines 66-73); difficulty is the surplus
actual - base, an Int since Go big.Int subtraction can go negative. -/
structure CandidateMember where
  coinbase : Nat
  address : Nat
  publickey : Nat
  difficulty : Int
  upper : Int
  lower : Int
deriving DecidableEq

/-- maxUint256 (election.go line 58): 2^256 (the comment in the source calls
it 2^256-1 but the value is Exp(2,256)). -/
def maxUint256 : Int := 2 ^ 256

/-- The candidate record built from one fruit in getCandinates (lines 718-741),
or none when the fruit does not want election or its pubkey is invalid. -/
def rawCandidate (K : ElectFns) (f : FruitE) : Option CandidateMember :=
  if f.toElect then
    match f.pubkey with
    | none => none
    | some pk =>
      let ad := K.getDifficulty f.headerId
      some { coinbase := f.coinbase, publickey := pk,
             address := K.pubkeyToAddress pk,
             difficulty := (ad.1 : Int) - (ad.2 : Int),
             upper := 0, lower := 0 }
  else none

/-- The block loop of getCandinates (lines 709-744): walk count blocks from
start, fail (Go returns Hash nil) if any block is missing, and accumulate the
seed hashes and candidate records in block order. -/
def collectWindow (K : ElectFns) (g : Nat → Option SnailBlockE) :
    Nat → Nat → Option (List Nat × List CandidateMember)
  | _, 0 => some ([], [])
  | start, Nat.succ n =>
    match g start with
    | none => none
    | some blk =>
      match collectWindow K g (start + 1) n with
      | none => none
      | some (seeds, mems) =>
        some (blk.hash :: seeds, blk.fruits.filterMap (rawCandidate K) ++ mems)

/-- fruitsCount for one address: the number of candidate records with that
address (getCandinates counts one per electable fruit). -/
def countAddr (mems : List CandidateMember) (a : Nat) : Nat :=
  (mems.filter (fun m => decide (m.address = a))).length

/-- The range assignment of getCandinates (lines 766-780): lower = rate * dd
before adding the member's difficulty, upper = rate * dd after, and the last
member's upper is maxUint256. -/
def assignRanges (rate : Int) : Int → List CandidateMember → List CandidateMember
  | _, [] => []
  | dd, [c] => [{ c with lower := rate * dd, upper := maxUint256 }]
  | dd, c :: c' :: rest =>
    { c with lower := rate * dd, upper := rate * (dd + c.difficulty) } ::
      assignRanges rate (dd + c.difficulty) (c' :: rest)

/-- getCandinates (lines 702-783) over the window [b, e]: collect candidates,
drop addresses below the fruit threshold, and assign lottery ranges with
rate = maxUint256 / td (Euclidean division as in Go big.Int.Div; Go panics
when td = 0, where Int.ediv yields 0).  none models the nil-candidate return. -/
def getCandinates (K : ElectFns) (threshold : Nat) (g : Nat → Option SnailBlockE)
    (b e : Nat) : Option (Nat × List CandidateMember) :=
  match collectWindow K g b (e + 1 - b) with
  | none => none
  | some (seeds, mems) =>
    let candidates := mems.filter (fun m => decide (threshold ≤ countAddr mems m.address))
    if candidates.isEmpty then none
    else
      let td := candidates.foldl (fun a c => a + c.difficulty) 0
      let rate := Int.ediv maxUint256 td
      some (K.keccakSeed seeds, assignRanges rate 0 candidates)

/-- One lottery round body of elect (lines 816-846): the first candidate whose
[lower, upper) range contains the round hash is drawn unless it is a default
member or already drawn. -/
def electBody (defaultAddrs : List Nat) (cands : List CandidateMember) (prop : Int)
    (addrs : List Nat) (acc : List CommitteeMember) :
    List Nat × List CommitteeMember :=
  match cands.find? (fun c => decide (c.lower ≤ prop ∧ prop < c.upper)) with
  | none => (addrs, acc)
  | some c =>
    if c.address ∈ defaultAddrs then (addrs, acc)
    else if c.address ∈ addrs then (addrs, acc)
    else (c.address :: addrs,
          acc ++ [{ coinbase := c.coinbase, publickey := c.publickey,
                    flag := MFlag.unused, mtype := MType.dtype }])

/-- The round loop of elect: the body runs for round, then the loop continues
while fuel remains (Go checks round > MaximumCommitteeNumber after the body). -/
def electAux (K : ElectFns) (defaultAddrs : List Nat) (cands : List CandidateMember)
    (seedBig : Nat) : Nat → Nat → List Nat → List CommitteeMember →
    List CommitteeMember
  | round, 0, addrs, acc =>
    (electBody defaultAddrs cands (Int.ofNat (K.keccakRound (seedBig + round))) addrs acc).2
  | round, Nat.succ n, addrs, acc =>
    let next := electBody defaultAddrs cands
      (Int.ofNat (K.keccakRound (seedBig + round))) addrs acc
    electAux K defaultAddrs cands seedBig (round + 1) n next.1 next.2

/-- elect (lines 805-857): run the lottery from round 1; the do-while loop
executes max(1, MaximumCommitteeNumber) rounds. -/
def elect (K : ElectFns) (defaultAddrs : List Nat) (cands : List CandidateMember)
    (seedBig : Nat) (maxRounds : Nat) : List CommitteeMember :=
  electAux K defaultAddrs cands seedBig 1 (maxRounds - 1) [] []

/-- electCommittee (lines 860-896) end to end: candidates and seed from the
window, the lottery, then the member/backup split; a nil candidate list leaves
the drawn list empty so the genesis fallback fires. -/
def electCommitteePipeline (K : ElectFns) (threshold maxRounds minimum : Nat)
    (genesisCommittee defaultMembers : List CommitteeMember)
    (g : Nat → Option SnailBlockE) (b e : Nat) : ElectionCommittee :=
  let defaultAddrs := defaultMembers.map (fun m => K.pubkeyToAddress m.publickey)
  match getCandinates K threshold g b e with
  | none => electCommitteeSplit genesisCommittee defaultMembers [] minimum
  | some (seed, cands) =>
    electCommitteeSplit genesisCommittee defaultMembers
      (elect K defaultAddrs cands seed maxRounds) minimum

/-- A committee member with index i, used for concrete witness inputs. -/
def cmW (i : Nat) : CommitteeMember :=
  { coinbase := i, publickey := i, flag := MFlag.unused, mtype := MType.dtype }

/-- A concrete electable fruit for the determinism witness. -/
def fruitW : FruitE := { toElect := true, pubkey := some 11, coinbase := 3, headerId := 1 }

/-- A concrete snail block for the determinism witness. -/
def blkW : SnailBlockE := { hash := 5, fruits := [fruitW] }

/-- Concrete (arbitrary but fixed) crypto and consensus functions. -/
def fnsW : ElectFns :=
  { keccakSeed := fun l => l.foldl (fun a x => a * 31 + x) 7,
    keccakRound := fun n => n * 131 + 17,
    pubkeyToAddress := fun pk => pk + 1000,
    getDifficulty := fun _ => (5, 2) }

/-- Two chain views agreeing on the window [1, 1]. -/
def g1W : Nat → Option SnailBlockE := fun _ => some blkW

def g2W : Nat → Option SnailBlockE := fun n => if n = 1 then some blkW else none

end ElectionCore

namespace ElectionGet

/-- A committee member as seen by GetCommittee: its serialized public key and
an opaque payload standing for the remaining fields. -/
structure Member7 where
  pk : Nat
  payload : Nat
deriving DecidableEq

/-- A switch-info flag (types.StateAppendFlag / StateRemovedFlag / others). -/
inductive SwitchFlag where
  | appendFlag
  | removedFlag
  | otherFlag
deriving DecidableEq

/-- One entry of a block's SwitchInfos().Vals. -/
structure SwitchVal where
  pk : Nat
  flag : SwitchFlag
deriving DecidableEq

/-- A committee snapshot as used by GetCommittee: members, backups and the
fast-block numbers carrying its switch infos. -/
structure Committee7 where
  members : List Member7
  backups : List Member7
  switches : List Nat
deriving DecidableEq

abbrev StateMap := List (Nat × SwitchFlag)

/-- Replay the Vals of one switch block into the states map (the Go switch
statement only stores append and removed flags). -/
def applySwitchVals (st : StateMap) (vals : List SwitchVal) : StateMap :=
  vals.foldl
    (fun st v =>
      match v.flag with
      | SwitchFlag.appendFlag => mapInsert st v.pk SwitchFlag.appendFlag
      | SwitchFlag.removedFlag => mapInsert st v.pk SwitchFlag.removedFlag
      | SwitchFlag.otherFlag => st)
    st

/-- Replay a list of switch block numbers in order, each block looked up in
the fast chain (env gives a block's SwitchInfos().Vals). -/
def applySwitches (env : Nat → List SwitchVal) (nums : List Nat) : StateMap :=
  nums.foldl (fun st num => applySwitchVals st (env num)) []

/-- A member survives unless its latest replayed flag is removed. -/
def memberKeep (states : StateMap) (m : Member7) : Bool :=
  match mapGet states m.pk with
  | some SwitchFlag.removedFlag => false
  | _ => true

/-- A backup is included exactly when its latest replayed flag is append. -/
def backupKeep (states : StateMap) (m : Member7) : Bool :=
  decide (mapGet states m.pk = some SwitchFlag.appendFlag)

/-- The switch numbers GetCommittee replays (lines 570-600): all of them when
fastNumber is beyond the last switch, otherwise the prefix of numbers below
fastNumber (the loop breaks at the first number at or above it). -/
def replayedNums (c : Committee7) (fastNumber : Nat) : List Nat :=
  if (c.switches.getLast?).getD 0 < fastNumber then c.switches
  else c.switches.takeWhile (fun n => decide (n < fastNumber))

/-- GetCommittee (lines 559-620) given the owning committee: with no switches
the members are returned as they are; otherwise the replayed states filter the
members and promote the appended backups. -/
def getCommitteeMembers (env : Nat → List SwitchVal) (c : Committee7)
    (fastNumber : Nat) : List Member7 :=
  if c.switches.isEmpty then c.members
  else
    let states := applySwitches env (replayedNums c fastNumber)
    c.members.filter (memberKeep states) ++ c.backups.filter (backupKeep states)

/-- The states of exactly the switch entries strictly below fastNumber. -/
def effStates (env : Nat → List SwitchVal) (c : Committee7) (fastNumber : Nat) :
    StateMap :=
  applySwitches env (c.switches.filter (fun n => decide (n < fastNumber)))

/-- Modelled from the spec: the effective member set obtained by replaying
exactly the switch entries with block number strictly below the queried fast
number, excluding removed members and including appended backups. -/
def getCommitteeMembersSpec (env : Nat → List SwitchVal) (c : Committee7)
    (fastNumber : Nat) : List Member7 :=
  c.members.filter (memberKeep (effStates env c fastNumber)) ++
    c.backups.filter (backupKeep (effStates env c fastNumber))

/-- A concrete fast chain carrying switch infos at blocks 1 and 3. -/
def envW7 : Nat → List SwitchVal := fun n =>
  if n = 1 then [{ pk := 5, flag := SwitchFlag.removedFlag }]
  else if n = 3 then [{ pk := 9, flag := SwitchFlag.appendFlag }]
  else []

/-- A concrete committee with two members, one backup and switches [1, 3]. -/
def cW7 : Committee7 :=
  { members := [{ pk := 5, payload := 0 }, { pk := 6, payload := 0 }],
    backups := [{ pk := 9, payload := 0 }],
    switches := [1, 3] }

end ElectionGet

/- ------------------------------------------------------------------ -/
/- Theorems.                                                           -/
/- ------------------------------------------------------------------ -/

namespace Minerva

/-- C1 (amended): for every nonce the snail mining loop reports as a success,
a candidate with a (non-nil) fruit list AND fast number zero yields a seal
with is-fruit false whose high 128 digest bits are at most 2^128 / block
difficulty, and a candidate with no fruits and nonzero fast number yields a
seal with is-fruit true whose low 128 digest bits are at most
2^128 / fruit difficulty. -/
theorem mineSnail_target (fruits : Option (List Nat)) (header : SnailHeader)
    (digest result nonce : Nat) (h' : SnailHeader)
    (h : mineSnailStep fruits header digest result nonce = some h') :
    (fruits.isSome → header.fastNumber = 0 →
      h'.fruit = false ∧ result / 2 ^ 128 ≤ maxUint128 / header.difficulty) ∧
    (fruits = none → header.fastNumber ≠ 0 →
      h'.fruit = true ∧ result % 2 ^ 128 ≤ maxUint128 / header.fruitDifficulty) := by
  unfold mineSnailStep at h
  split at h
  case isTrue htgt =>
    split at h
    case isTrue hsome =>
      cases h
      refine ⟨fun _ _ => ⟨rfl, htgt⟩, fun hn _ => ?_⟩
      rw [hn] at hsome
      cases hsome
    case isFalse hns => cases h
  case isFalse htgt =>
    split at h
    case isTrue hf =>
      split at h
      case isTrue hft =>
        cases h
        exact ⟨fun _ h0 => absurd h0 hf, fun _ _ => ⟨rfl, hft⟩⟩
      case isFalse => cases h
    case isFalse => cases h

/-- C1 counterexample: a candidate whose fruit list is non-empty but whose
fast number is nonzero emits a seal with is-fruit TRUE whose high 128 bits
exceed the block target, refuting the claim as stated. -/
theorem mineSnail_target_counterexample :
    (some ([] : List Nat)).isSome = true ∧
    mineSnailStep (some []) hdrCX 0 (2 ^ 128 * 5) 5 = some hdrCXSealed ∧
    hdrCXSealed.fruit = true ∧
    ¬ (2 ^ 128 * 5) / 2 ^ 128 ≤ maxUint128 / hdrCX.difficulty := by
  refine ⟨rfl, ?_, rfl, by decide⟩
  decide

/-- C1 witness: the amended theorem applied to a fruit-carrying candidate with
fast number zero, at the trivial difficulty 1. -/
theorem mineSnail_target_witness :
    hdrWSealed.fruit = false ∧ 0 / 2 ^ 128 ≤ maxUint128 / hdrW.difficulty :=
  (mineSnail_target (some []) hdrW 3 0 9 hdrWSealed rfl).1 rfl rfl

end Minerva

namespace Election

/-- C5 (amended): for the committee record the code builds for id k, the
election window is lastElection = k * period - confirm and firstElection =
max(1, lastElection + 1 - period); the record's switch-check field is
(k+1) * period, and the election of committee k+1 is triggered exactly when
the snail head reaches (k+1) * period (not k * period), electing id k+1 over
the window ending at (k+1) * period - confirm. -/
theorem election_window_and_trigger (ep sci k N lf lf2 : Nat) (hep : 0 < ep) :
    ((committeeOfPeriod ep sci k lf).lastElectionNumber = k * ep - sci) ∧
    ((committeeOfPeriod ep sci k lf).firstElectionNumber =
      max 1 (k * ep - sci + 1 - ep)) ∧
    ((committeeOfPeriod ep sci k lf).switchCheckNumber = (k + 1) * ep) ∧
    ((loopElectionStep ep sci (committeeOfPeriod ep sci k lf) N lf2).isSome ↔
      N = (k + 1) * ep) ∧
    (∀ c', loopElectionStep ep sci (committeeOfPeriod ep sci k lf) N lf2 = some c' →
      c'.id = k + 1 ∧
      c'.lastElectionNumber = (k + 1) * ep - sci ∧
      c'.firstElectionNumber = max 1 ((k + 1) * ep - sci + 1 - ep) ∧
      c'.switchCheckNumber = (k + 2) * ep) := by
  have hsw : (committeeOfPeriod ep sci k lf).switchCheckNumber = (k + 1) * ep := by
    simp only [committeeOfPeriod]
    ring
  refine ⟨rfl, ?_, hsw, ?_, ?_⟩
  · simp only [committeeOfPeriod, beginElectionNumberOf, endElectionNumberOf]
    rw [Nat.max_def]
    split
    case isTrue h1 => split <;> omega
    case isFalse h1 => split <;> omega
  · constructor
    · intro hs
      unfold loopElectionStep at hs
      rw [hsw] at hs
      split at hs
      case isTrue h => exact h.symm
      case isFalse h => cases hs
    · intro hN
      unfold loopElectionStep
      rw [hsw, if_pos hN.symm]
      exact rfl
  · intro c' hc
    unfold loopElectionStep at hc
    rw [hsw] at hc
    split at hc
    case isFalse => cases hc
    case isTrue hN =>
      cases hc
      subst hN
      refine ⟨Nat.mul_div_cancel _ hep, rfl, ?_, by ring⟩
      show (if (k + 1) * ep - sci < ep then 1 else (k + 1) * ep - sci - ep + 1) =
        max 1 ((k + 1) * ep - sci + 1 - ep)
      rw [Nat.max_def]
      split
      case isTrue h1 => split <;> omega
      case isFalse h1 => split <;> omega

/-- C5 counterexample: with period 100 and confirm interval 10, committee 1 is
elected when the head reaches 100 (switch-check of the genesis committee), and
once committee 1 is current, reaching head 100 = 1 * period triggers nothing:
the election of committee 2 happens at 200, refuting the claim that committee
k+1 is elected when the head reaches k * period. -/
theorem election_trigger_counterexample :
    loopElectionStep 100 10 (genesisCommitteeC5 100) 100 7 = some c1Elected ∧
    c1Elected.id = 1 ∧ c1Elected.switchCheckNumber = 200 ∧
    loopElectionStep 100 10 c1Elected 100 7 = none := by
  refine ⟨by decide, rfl, rfl, by decide⟩

/-- C5 witness: the amended theorem at period 100, confirm 10, committee 1,
head 200. -/
theorem election_window_and_trigger_witness :
    ((committeeOfPeriod 100 10 1 7).lastElectionNumber = 1 * 100 - 10) ∧
    ((committeeOfPeriod 100 10 1 7).firstElectionNumber =
      max 1 (1 * 100 - 10 + 1 - 100)) ∧
    ((committeeOfPeriod 100 10 1 7).switchCheckNumber = (1 + 1) * 100) ∧
    ((loopElectionStep 100 10 (committeeOfPeriod 100 10 1 7) 200 9).isSome ↔
      200 = (1 + 1) * 100) ∧
    (∀ c', loopElectionStep 100 10 (committeeOfPeriod 100 10 1 7) 200 9 = some c' →
      c'.id = 1 + 1 ∧
      c'.lastElectionNumber = (1 + 1) * 100 - 10 ∧
      c'.firstElectionNumber = max 1 ((1 + 1) * 100 - 10 + 1 - 100) ∧
      c'.switchCheckNumber = (1 + 2) * 100) :=
  election_window_and_trigger 100 10 1 200 7 9 (by decide)

/-- C9: when a switch info whose committee id differs from the current
committee's id arrives while no next committee exists, updateMembers
dereferences the nil next committee (panics); the warn-and-reject branch is
reachable only when a next committee exists. -/
theorem updateMembers_nil_next (cur : CommitteeU) (next : Option CommitteeU)
    (cid : Nat) :
    (cid ≠ cur.id → next = none →
      updateMembersSelect cur next cid = UpdResult.nilPanic) ∧
    (updateMembersSelect cur next cid = UpdResult.warnReject →
      ∃ n, next = some n ∧ cid ≠ cur.id ∧ cid ≠ n.id) := by
  constructor
  · intro hne hn
    subst hn
    unfold updateMembersSelect
    rw [if_neg hne]
    rfl
  · intro hw
    unfold updateMembersSelect at hw
    split at hw
    case isTrue => cases hw
    case isFalse hne =>
      cases next with
      | none => cases hw
      | some n =>
        simp only [Option.elim] at hw
        split at hw
        next => cases hw
        next hne2 => exact ⟨n, rfl, hne, hne2⟩

/-- C9 witness: with current committee id 3, no next committee and an incoming
switch info for committee 5, updateMembers hits the nil dereference. -/
theorem updateMembers_nil_next_witness :
    updateMembersSelect { id := 3 } none 5 = UpdResult.nilPanic :=
  (updateMembers_nil_next { id := 3 } none 5).1 (by decide) rfl

/-- C10: getLastNumber indexes the end-election snail block's last fruit with
no emptiness check: whenever both window blocks exist and the end block's
fruit list is empty it panics (index out of range), and with at least one
fruit it returns that fruit's fast number plus ElectionSwitchoverNumber. -/
theorem getLastNumber_empty_fruits (g : Nat → Option (List Nat))
    (esn b e : Nat) (bl : List Nat) (hb : g b = some bl) :
    (g e = some [] → getLastNumber g esn b e = none) ∧
    (∀ fs fn, g e = some fs → fs.getLast? = some fn →
      getLastNumber g esn b e = some (some (fn + esn))) := by
  constructor
  · intro he
    simp only [getLastNumber, hb, he, List.getLast?_nil]
  · intro fs fn he hl
    simp only [getLastNumber, hb, he, hl]

/-- C10 witness: a window whose end block carries no fruit panics, applied at
begin block [4], end block []. -/
theorem getLastNumber_empty_fruits_witness :
    getLastNumber (fun n => if n = 1 then some [4] else some []) 50 1 9 = none :=
  (getLastNumber_empty_fruits (fun n => if n = 1 then some [4] else some [])
    50 1 9 [4] rfl).1 rfl

end Election

namespace KV

theorem mem_keys_iff {β : Type} {m : List (Nat × β)} {k : Nat} :
    k ∈ keys m ↔ ∃ v, (k, v) ∈ m := by
  constructor
  · intro h
    rcases List.mem_map.mp h with ⟨⟨a, b⟩, hp, rfl⟩
    exact ⟨b, hp⟩
  · rintro ⟨v, hv⟩
    exact List.mem_map.mpr ⟨(k, v), hv, rfl⟩

theorem mapGet_eq_some_mem {β : Type} {m : List (Nat × β)} {k : Nat} {v : β}
    (h : mapGet m k = some v) : (k, v) ∈ m := by
  induction m with
  | nil => cases h
  | cons p rest ih =>
    rcases p with ⟨k', v'⟩
    unfold mapGet at h
    split at h
    next heq =>
      cases h
      subst heq
      exact List.mem_cons_self _ _
    next hne =>
      exact List.mem_cons_of_mem _ (ih h)

theorem mapGet_eq_none_not_mem {β : Type} {m : List (Nat × β)} {k : Nat}
    (h : mapGet m k = none) : k ∉ keys m := by
  induction m with
  | nil => simp [keys]
  | cons p rest ih =>
    rcases p with ⟨k', v'⟩
    unfold mapGet at h
    split at h
    next heq => cases h
    next hne =>
      intro hmem
      simp only [keys, List.map_cons, List.mem_cons] at hmem
      rcases hmem with h1 | h2
      · exact hne h1.symm
      · exact ih h h2

theorem mem_keys_mapErase {β : Type} {m : List (Nat × β)} {k k' : Nat} :
    k' ∈ keys (mapErase m k) ↔ k' ∈ keys m ∧ k' ≠ k := by
  constructor
  · intro h
    rcases mem_keys_iff.mp h with ⟨v, hv⟩
    rcases List.mem_filter.mp hv with ⟨hm, hp⟩
    refine ⟨mem_keys_iff.mpr ⟨v, hm⟩, ?_⟩
    simpa using hp
  · rintro ⟨h1, h2⟩
    rcases mem_keys_iff.mp h1 with ⟨v, hv⟩
    exact mem_keys_iff.mpr ⟨v, List.mem_filter.mpr ⟨hv, by simpa using h2⟩⟩

theorem mem_keys_mapInsert {β : Type} {m : List (Nat × β)} {k k' : Nat} {v : β} :
    k' ∈ keys (mapInsert m k v) ↔ k' = k ∨ k' ∈ keys m := by
  unfold mapInsert
  constructor
  · intro h
    rcases mem_keys_iff.mp h with ⟨w, hw⟩
    rcases List.mem_append.mp hw with h1 | h2
    · exact Or.inr (mem_keys_mapErase.mp (mem_keys_iff.mpr ⟨w, h1⟩)).1
    · have h3 := List.mem_singleton.mp h2
      exact Or.inl (congrArg Prod.fst h3)
  · intro h
    rcases h with h1 | h2
    · subst h1
      exact mem_keys_iff.mpr ⟨v, List.mem_append.mpr (Or.inr (List.mem_singleton.mpr rfl))⟩
    · by_cases hk : k' = k
      · subst hk
        exact mem_keys_iff.mpr ⟨v, List.mem_append.mpr (Or.inr (by simp))⟩
      · rcases mem_keys_iff.mp h2 with ⟨w, hw⟩
        exact mem_keys_iff.mpr
          ⟨w, List.mem_append.mpr (Or.inl (List.mem_filter.mpr ⟨hw, by simpa using hk⟩))⟩

theorem mapGet_mapInsert_self {β : Type} (m : List (Nat × β)) (k : Nat) (v : β) :
    mapGet (mapInsert m k v) k = some v := by
  induction m with
  | nil => simp [mapInsert, mapErase, mapGet]
  | cons p rest ih =>
    rcases p with ⟨k', v'⟩
    by_cases h : k' = k
    · subst h
      simpa [mapInsert, mapErase, mapGet] using ih
    · simpa [mapInsert, mapErase, mapGet, h] using ih

theorem mapErase_of_not_mem {β : Type} {m : List (Nat × β)} {k : Nat}
    (h : k ∉ keys m) : mapErase m k = m := by
  unfold mapErase
  induction m with
  | nil => rfl
  | cons p rest ih =>
    rcases p with ⟨k', v'⟩
    simp only [keys, List.map_cons, List.mem_cons, not_or] at h
    rw [List.filter_cons_of_pos (by simpa using fun hc => h.1 hc.symm)]
    rw [ih (by simpa [keys] using h.2)]

theorem length_mapInsert_le {β : Type} (m : List (Nat × β)) (k : Nat) (v : β) :
    (mapInsert m k v).length ≤ m.length + 1 := by
  unfold mapInsert mapErase
  rw [List.length_append]
  have hf := List.length_filter_le (fun p => decide (p.1 ≠ k)) m
  simp only [List.length_singleton]
  omega

theorem length_mapErase_le {β : Type} (m : List (Nat × β)) (k : Nat) :
    (mapErase m k).length ≤ m.length :=
  List.length_filter_le _ m

theorem length_mapInsert_of_not_mem {β : Type} {m : List (Nat × β)} {k : Nat}
    (v : β) (h : k ∉ keys m) :
    (mapInsert m k v).length = m.length + 1 := by
  unfold mapInsert
  rw [mapErase_of_not_mem h, List.length_append, List.length_singleton]

end KV

namespace SnailPool

theorem pendSubAll_append (cap : Nat) (s : PoolState) (f : Fruit) (app : Bool)
    (h : PendSubAll s) : PendSubAll (appendFruit cap s f app).1 := by
  unfold appendFruit
  split
  next => exact h
  next =>
    intro k hk
    simp only at hk ⊢
    cases app with
    | true =>
      rcases mem_keys_mapInsert.mp hk with h1 | h2
      · exact mem_keys_mapInsert.mpr (Or.inl h1)
      · exact mem_keys_mapInsert.mpr (Or.inr (h k h2))
    | false =>
      exact mem_keys_mapInsert.mpr (Or.inr (h k hk))

theorem pendSubAll_insertBoth (s : PoolState) (k : Nat) (v : Fruit)
    (h : PendSubAll s) :
    PendSubAll { allFruits := mapInsert s.allFruits k v,
                 fruitPending := mapInsert s.fruitPending k v } := by
  intro x hx
  rcases mem_keys_mapInsert.mp hx with h1 | h2
  · exact mem_keys_mapInsert.mpr (Or.inl h1)
  · exact mem_keys_mapInsert.mpr (Or.inr (h x h2))

theorem pendSubAll_insertRest (s : PoolState) (l : List Fruit)
    (h : PendSubAll s) : PendSubAll (insertRestFruits s l) := by
  induction l generalizing s with
  | nil => exact h
  | cons f rest ih =>
    exact ih _ (pendSubAll_insertBoth s f.fastHash f h)

theorem pendSubAll_removeWithLock (s : PoolState) (fruits : List Fruit)
    (h : PendSubAll s) : PendSubAll (removeWithLock s fruits) := by
  unfold removeWithLock
  split
  next => exact h
  next lastF _heq =>
    intro x hx
    simp only at hx ⊢
    rcases mem_keys_iff.mp hx with ⟨v, hv⟩
    rcases List.mem_filter.mp hv with ⟨hmem, hq⟩
    cases hg : mapGet s.allFruits x with
    | none =>
      exact absurd (h x (mem_keys_iff.mpr ⟨v, hmem⟩)) (mapGet_eq_none_not_mem hg)
    | some f =>
      rw [hg] at hq
      simp only [decide_eq_true_eq] at hq
      refine mem_keys_iff.mpr ⟨f, List.mem_filter.mpr ⟨mapGet_eq_some_mem hg, ?_⟩⟩
      simpa using hq

theorem pendSubAll_removeUnfresh (s : PoolState) (fresh : Fruit → Option PoolErr)
    (h : PendSubAll s) : PendSubAll (removeUnfreshFruit fresh s) := by
  intro x hx
  simp only [removeUnfreshFruit] at hx ⊢
  rcases mem_keys_iff.mp hx with ⟨v, hv⟩
  rcases List.mem_filter.mp hv with ⟨hmem, hq⟩
  cases hg : mapGet s.allFruits x with
  | none =>
    exact absurd (h x (mem_keys_iff.mpr ⟨v, hmem⟩)) (mapGet_eq_none_not_mem hg)
  | some f =>
    rw [hg] at hq
    exact mem_keys_iff.mpr ⟨f, List.mem_filter.mpr ⟨mapGet_eq_some_mem hg, hq⟩⟩

theorem pendSubAll_removePending (s : PoolState) (hh : Nat)
    (h : PendSubAll s) : PendSubAll (removePendingFruitByFastHash s hh) := by
  intro x hx
  rcases mem_keys_mapErase.mp hx with ⟨h1, h2⟩
  exact mem_keys_mapErase.mpr ⟨h x h1, h2⟩

theorem cap_append (cap : Nat) (s : PoolState) (f : Fruit) (app : Bool)
    (h : s.allFruits.length ≤ cap) :
    ((appendFruit cap s f app).1).allFruits.length ≤ cap := by
  unfold appendFruit
  split
  next => exact h
  next hlt =>
    simp only
    have := length_mapInsert_le s.allFruits f.fastHash f
    omega

theorem cap_removeWithLock (cap : Nat) (s : PoolState) (fruits : List Fruit)
    (h : s.allFruits.length ≤ cap) :
    (removeWithLock s fruits).allFruits.length ≤ cap := by
  unfold removeWithLock
  split
  next => exact h
  next lastF _heq =>
    simp only
    have := List.length_filter_le
      (fun p : Nat × Fruit => decide (lastF.fastNumber < p.2.fastNumber)) s.allFruits
    omega

theorem cap_removeUnfresh (cap : Nat) (s : PoolState) (fresh : Fruit → Option PoolErr)
    (h : s.allFruits.length ≤ cap) :
    (removeUnfreshFruit fresh s).allFruits.length ≤ cap := by
  simp only [removeUnfreshFruit]
  have := List.length_filter_le (fun p : Nat × Fruit => keepFresh fresh p.2) s.allFruits
  omega

theorem cap_removePending (cap : Nat) (s : PoolState) (hh : Nat)
    (h : s.allFruits.length ≤ cap) :
    (removePendingFruitByFastHash s hh).allFruits.length ≤ cap := by
  simp only [removePendingFruitByFastHash]
  have := length_mapErase_le s.allFruits hh
  omega

theorem pool_subset_all (cap : Nat) (b : Bool) :
    ∀ s, PoolReach cap b s → PendSubAll s := by
  intro s h
  induction h with
  | init => intro k hk; simp [keys] at hk
  | step _ hstep ih =>
    cases hstep with
    | append b2 s2 f app => exact pendSubAll_append cap _ f app ih
    | reinject s2 l => exact pendSubAll_insertRest _ l ih
    | removeIncluded b2 s2 fruits => exact pendSubAll_removeWithLock _ fruits ih
    | removeUnfresh b2 s2 fresh => exact pendSubAll_removeUnfresh _ fresh ih
    | removePending b2 s2 hh => exact pendSubAll_removePending _ hh ih

theorem pool_cap_bound (cap : Nat) :
    ∀ s, PoolReach cap false s → s.allFruits.length ≤ cap := by
  intro s h
  induction h with
  | init => simp
  | step _ hstep ih =>
    cases hstep with
    | append b2 s2 f app => exact cap_append cap _ f app ih
    | removeIncluded b2 s2 fruits => exact cap_removeWithLock cap _ fruits ih
    | removeUnfresh b2 s2 fresh => exact cap_removeUnfresh cap _ fresh ih
    | removePending b2 s2 hh => exact cap_removePending cap _ hh ih

/-- C2 (amended): in every fruit-pool state reachable by fruit additions,
reorg resets, re-injections and removals, the pending map's fast-hash keys
are a subset of the all-fruits keys; the cap bound |all-fruits| <= FruitCount
holds in every state reachable WITHOUT re-injections, but insertRestFruits
performs no cap check, so a reorg re-injection can push all-fruits above the
cap. -/
theorem pool_invariants (cap : Nat) :
    (∀ s, PoolReach cap true s → PendSubAll s) ∧
    (∀ s, PoolReach cap false s → s.allFruits.length ≤ cap) :=
  ⟨pool_subset_all cap true, pool_cap_bound cap⟩

/-- C2 counterexample: with cap 1, re-injecting two fruits with distinct fast
hashes into the empty pool is a reachable transition that leaves two entries
in all-fruits, refuting the claimed cap invariant. -/
theorem pool_cap_counterexample :
    ¬ (∀ s, PoolReach 1 true s →
        PendSubAll s ∧ s.allFruits.length ≤ 1) := by
  intro h
  have hreach : PoolReach 1 true (insertRestFruits { allFruits := [], fruitPending := [] } [cf1, cf2]) :=
    PoolReach.step PoolReach.init (PoolStep.reinject _ _)
  have h2 := (h _ hreach).2
  have : (insertRestFruits { allFruits := [], fruitPending := [] } [cf1, cf2]).allFruits.length = 2 := by decide
  omega

/-- C2 witness: the invariant theorem applied to two concrete one-step
reachable states at cap 2. -/
theorem pool_invariants_witness :
    PendSubAll (insertRestFruits { allFruits := [], fruitPending := [] } [cf1]) ∧
    ((appendFruit 2 { allFruits := [], fruitPending := [] } cf1 true).1).allFruits.length ≤ 2 :=
  ⟨(pool_invariants 2).1 _ (PoolReach.step PoolReach.init (PoolStep.reinject _ _)),
   (pool_invariants 2).2 _ (PoolReach.step PoolReach.init (PoolStep.append false _ _ _))⟩

end SnailPool


namespace SnailPool

theorem addRemoteFruits_cons_invalid (env : ChainEnv) (cap : Nat) {f : Fruit}
    {s : PoolState} {e : PoolErr} (hv : validateFruit env f = some e)
    (rest : List Fruit) :
    addRemoteFruits env cap (f :: rest) s =
      (addRemoteFruits env cap rest s).map (fun p => (p.1, some e :: p.2)) := by
  have heq : addRemoteFruits env cap (f :: rest) s =
      (match validateFruit env f with
       | some e =>
         match addRemoteFruits env cap rest s with
         | none => none
         | some (s', errs) => some (s', some e :: errs)
       | none =>
         match addFruit env cap s f with
         | none => none
         | some (s', _dropped) =>
           match addRemoteFruits env cap rest s' with
           | none => none
           | some (s'', errs) => some (s'', none :: errs)) := rfl
  rw [heq, hv]
  cases addRemoteFruits env cap rest s with
  | none => rfl
  | some p => rcases p with ⟨a, b⟩; rfl

theorem addRemoteFruits_cons_valid (env : ChainEnv) (cap : Nat) {f : Fruit}
    {s s1 : PoolState} {r : Option PoolErr} (hv : validateFruit env f = none)
    (ha : addFruit env cap s f = some (s1, r)) (rest : List Fruit) :
    addRemoteFruits env cap (f :: rest) s =
      (addRemoteFruits env cap rest s1).map (fun p => (p.1, none :: p.2)) := by
  have heq : addRemoteFruits env cap (f :: rest) s =
      (match validateFruit env f with
       | some e =>
         match addRemoteFruits env cap rest s with
         | none => none
         | some (s', errs) => some (s', some e :: errs)
       | none =>
         match addFruit env cap s f with
         | none => none
         | some (s', _dropped) =>
           match addRemoteFruits env cap rest s' with
           | none => none
           | some (s'', errs) => some (s'', none :: errs)) := rfl
  rw [heq, hv, ha]
  show (match addRemoteFruits env cap rest s1 with
        | none => none
        | some (s'', errs) => some (s'', none :: errs)) =
      (addRemoteFruits env cap rest s1).map (fun p => (p.1, none :: p.2))
  cases addRemoteFruits env cap rest s1 with
  | none => rfl
  | some p => rcases p with ⟨a, b⟩; rfl

theorem addRemote_errs_eq (env : ChainEnv) (cap : Nat) :
    ∀ (fruits : List Fruit) (s s' : PoolState) (errs : List (Option PoolErr)),
      addRemoteFruits env cap fruits s = some (s', errs) →
      errs = fruits.map (validateFruit env) := by
  intro fruits
  induction fruits with
  | nil =>
    intro s s' errs h
    simp only [addRemoteFruits] at h
    cases h
    rfl
  | cons f rest ih =>
    intro s s' errs h
    cases hv : validateFruit env f with
    | some e =>
      rw [addRemoteFruits_cons_invalid env cap hv rest] at h
      cases hrec : addRemoteFruits env cap rest s with
      | none => rw [hrec] at h; cases h
      | some p =>
        rw [hrec] at h
        rcases p with ⟨s2, errs2⟩
        have h' : some ((s2, some e :: errs2)) = some (s', errs) := h
        simp only [Option.some.injEq, Prod.mk.injEq] at h'
        rw [← h'.2, List.map_cons, hv]
        exact congrArg _ (ih s s2 errs2 hrec)
    | none =>
      cases ha : addFruit env cap s f with
      | none =>
        simp only [addRemoteFruits, hv, ha] at h
        cases h
      | some q =>
        rcases q with ⟨s1, r⟩
        rw [addRemoteFruits_cons_valid env cap hv ha rest] at h
        cases hrec : addRemoteFruits env cap rest s1 with
        | none => rw [hrec] at h; cases h
        | some p =>
          rw [hrec] at h
          rcases p with ⟨s2, errs2⟩
          have h' : some ((s2, none :: errs2)) = some (s', errs) := h
          simp only [Option.some.injEq, Prod.mk.injEq] at h'
          rw [← h'.2, List.map_cons, hv]
          exact congrArg _ (ih s1 s2 errs2 hrec)

theorem addRemote_scenario (env : ChainEnv) (cap : Nat) (h0 : env.headSnailNumber = 0) :
    ∀ (fruits : List Fruit) (s : PoolState),
      (∀ f ∈ fruits, validateFruit env f = none) →
      (∀ f ∈ fruits, env.currentFastNumber < f.fastNumber) →
      (fruits.map Fruit.fastHash).Nodup →
      (∀ f ∈ fruits, f.fastHash ∉ keys s.allFruits) →
      s.allFruits.length ≤ cap →
      (addRemoteFruits env cap fruits s).map (fun p => (p.2, p.1.allFruits.length)) =
        some (fruits.map (validateFruit env),
              min (s.allFruits.length + fruits.length) cap) := by
  intro fruits
  induction fruits with
  | nil =>
    intro s _ _ _ _ hle
    show some (([] : List (Option PoolErr)), s.allFruits.length) = _
    have hmin : s.allFruits.length = min (s.allFruits.length + ([] : List Fruit).length) cap := by
      simp only [List.length_nil, Nat.add_zero]
      omega
    rw [List.map_nil, ← hmin]
  | cons f rest ih =>
    intro s hval hfut hnodup hkeys hle
    have hvf : validateFruit env f = none := hval f (List.mem_cons_self f rest)
    have hff : env.currentFastNumber < f.fastNumber := hfut f (List.mem_cons_self f rest)
    have haf : addFruit env cap s f = some (appendFruit cap s f false) := by
      unfold addFruit
      rw [h0]
      rw [if_neg (by omega)]
      unfold addFruitBody
      rw [if_pos hff]
    by_cases hcap : cap ≤ s.allFruits.length
    · have heqc : s.allFruits.length = cap := Nat.le_antisymm hle hcap
      have hap : appendFruit cap s f false = (s, some PoolErr.exceedNumber) := by
        unfold appendFruit
        rw [if_pos hcap]
      rw [hap] at haf
      rw [addRemoteFruits_cons_valid env cap hvf haf rest]
      have ihr := ih s (fun g hg => hval g (List.mem_cons_of_mem f hg))
        (fun g hg => hfut g (List.mem_cons_of_mem f hg))
        (List.nodup_cons.mp hnodup).2
        (fun g hg => hkeys g (List.mem_cons_of_mem f hg)) hle
      cases hrec : addRemoteFruits env cap rest s with
      | none => rw [hrec] at ihr; simp at ihr
      | some p =>
        rw [hrec] at ihr
        rcases p with ⟨s2, errs2⟩
        have ihr' : some ((errs2, s2.allFruits.length)) =
            some (rest.map (validateFruit env),
                  min (s.allFruits.length + rest.length) cap) := ihr
        simp only [Option.some.injEq, Prod.mk.injEq] at ihr'
        obtain ⟨he, hl⟩ := ihr'
        show some (none :: errs2, s2.allFruits.length) = _
        have hmin : s2.allFruits.length =
            min (s.allFruits.length + (f :: rest).length) cap := by
          simp only [List.length_cons]
          omega
        rw [List.map_cons, hvf, he, ← hmin]
    · have hknotin : f.fastHash ∉ keys s.allFruits := hkeys f (List.mem_cons_self f rest)
      have hap : appendFruit cap s f false =
          ({ allFruits := mapInsert s.allFruits f.fastHash f,
             fruitPending := s.fruitPending }, none) := by
        unfold appendFruit
        rw [if_neg hcap]
        rfl
      rw [hap] at haf
      have hlen1 : (mapInsert s.allFruits f.fastHash f).length = s.allFruits.length + 1 :=
        length_mapInsert_of_not_mem f hknotin
      have hkeys1 : ∀ g ∈ rest,
          g.fastHash ∉ keys (mapInsert s.allFruits f.fastHash f) := by
        intro g hg hmem
        rcases mem_keys_mapInsert.mp hmem with h1 | h2
        · have hfnot : f.fastHash ∉ rest.map Fruit.fastHash := (List.nodup_cons.mp hnodup).1
          exact hfnot (h1 ▸ List.mem_map.mpr ⟨g, hg, rfl⟩)
        · exact hkeys g (List.mem_cons_of_mem f hg) h2
      rw [addRemoteFruits_cons_valid env cap hvf haf rest]
      have ihr := ih { allFruits := mapInsert s.allFruits f.fastHash f,
                       fruitPending := s.fruitPending }
        (fun g hg => hval g (List.mem_cons_of_mem f hg))
        (fun g hg => hfut g (List.mem_cons_of_mem f hg))
        (List.nodup_cons.mp hnodup).2
        hkeys1
        (by simp only; omega)
      cases hrec : addRemoteFruits env cap rest
          { allFruits := mapInsert s.allFruits f.fastHash f,
            fruitPending := s.fruitPending } with
      | none => rw [hrec] at ihr; simp at ihr
      | some p =>
        rw [hrec] at ihr
        rcases p with ⟨s2, errs2⟩
        have ihr' : some ((errs2, s2.allFruits.length)) =
            some (rest.map (validateFruit env),
                  min ((mapInsert s.allFruits f.fastHash f).length + rest.length) cap) := ihr
        simp only [Option.some.injEq, Prod.mk.injEq] at ihr'
        obtain ⟨he, hl⟩ := ihr'
        rw [hlen1] at hl
        show some (none :: errs2, s2.allFruits.length) = _
        have hmin : s2.allFruits.length =
            min (s.allFruits.length + (f :: rest).length) cap := by
          simp only [List.length_cons]
          omega
        rw [List.map_cons, hvf, he, ← hmin]

/-- C3 (amended): the error slice returned by AddRemoteFruits is aligned
index-for-index with the input and holds exactly the per-fruit
signature-integrity validation results; admission failures are decided later
by the event loop, which discards addFruit's return value, so they never
appear in the slice.  In particular, pushing unique valid future fruits into
a pool with the given cap retains exactly min(previous + pushed, cap) fruits
while every returned entry is nil, not ExceedNumber. -/
theorem addRemoteFruits_reports :
    (∀ (env : ChainEnv) (cap : Nat) (fruits : List Fruit) (s s' : PoolState)
       (errs : List (Option PoolErr)),
       addRemoteFruits env cap fruits s = some (s', errs) →
       errs = fruits.map (validateFruit env)) ∧
    (∀ (env : ChainEnv) (cap : Nat) (fruits : List Fruit) (s : PoolState),
       env.headSnailNumber = 0 →
       (∀ f ∈ fruits, validateFruit env f = none) →
       (∀ f ∈ fruits, env.currentFastNumber < f.fastNumber) →
       (fruits.map Fruit.fastHash).Nodup →
       (∀ f ∈ fruits, f.fastHash ∉ keys s.allFruits) →
       s.allFruits.length ≤ cap →
       (addRemoteFruits env cap fruits s).map (fun p => (p.2, p.1.allFruits.length)) =
         some (fruits.map (validateFruit env),
               min (s.allFruits.length + fruits.length) cap)) :=
  ⟨fun env cap fruits s s' errs h => addRemote_errs_eq env cap fruits s s' errs h,
   fun env cap fruits s h0 h1 h2 h3 h4 h5 =>
     addRemote_scenario env cap h0 fruits s h1 h2 h3 h4 h5⟩

/-- C3 counterexample: pushing two unique valid future fruits into a pool with
cap 1 retains one fruit but returns the error slice [nil, nil]: the
ExceedNumber admission failure of the second fruit is swallowed by the event
loop and never reaches the returned slice, refuting the claim that over-cap
entries are ExceedNumber. -/
theorem addRemoteFruits_counterexample :
    (addRemoteFruits envC3 1 [cf1, cf2] { allFruits := [], fruitPending := [] }).map
        (fun p => (p.2, p.1.allFruits.length)) =
      some ([none, none], 1) ∧
    (none : Option PoolErr) ≠ some PoolErr.exceedNumber := by
  exact ⟨by decide, by decide⟩

/-- C3 witness: both conjuncts of the amended theorem applied to one concrete
valid future fruit at cap 2. -/
theorem addRemoteFruits_reports_witness :
    ([none] : List (Option PoolErr)) = [cf1].map (validateFruit envC3) ∧
    (addRemoteFruits envC3 2 [cf1] { allFruits := [], fruitPending := [] }).map
        (fun p => (p.2, p.1.allFruits.length)) =
      some ([cf1].map (validateFruit envC3),
            min (({ allFruits := [], fruitPending := [] } : PoolState).allFruits.length
                  + [cf1].length) 2) :=
  ⟨addRemoteFruits_reports.1 envC3 2 [cf1]
     { allFruits := [], fruitPending := [] }
     { allFruits := [(1, cf1)], fruitPending := [] } [none] (by decide),
   addRemoteFruits_reports.2 envC3 2 [cf1] { allFruits := [], fruitPending := [] }
     rfl (by decide) (by decide) (by decide) (by decide) (by decide)⟩

theorem addFruitBody_dup (env : ChainEnv) (cap : Nat) (s : PoolState) (f g : Fruit)
    (hnf : ¬ env.currentFastNumber < f.fastNumber)
    (hex : env.fastBlockExists f.fastHash f.fastNumber = true)
    (hg : mapGet s.allFruits f.fastHash = some g)
    (hval : env.validateFruitEngine f = none) :
    addFruitBody env cap s f =
      (if f.difficulty < g.difficulty then (s, none)
       else if f.difficulty = g.difficulty then
         (if g.hash ≤ f.hash then (s, none) else appendFruit cap s f true)
       else appendFruit cap s f true) := by
  unfold addFruitBody
  rw [if_neg hnf]
  simp only [hex, hg, hval, if_true]

/-- C4 (amended): when a fruit f whose fast hash already indexes a pooled
fruit g arrives, passes full fruit validation, references a fast block that
exists at or below the current fast head, is not dropped by the snail-head
check, and the pool is strictly below its cap: if f.difficulty < g.difficulty
then f is dropped and the pool is unchanged; if the difficulties are equal,
the fruit with the lower block hash is kept; if f.difficulty > g.difficulty
then f replaces g in all-fruits and is marked pending.  (At the cap,
appendFruit refuses even a replacement, which the counterexample shows.) -/
theorem addFruit_conflict_resolution (env : ChainEnv) (cap : Nat) (s : PoolState)
    (f g : Fruit)
    (h0 : env.headSnailNumber = 0)
    (hnf : f.fastNumber ≤ env.currentFastNumber)
    (hex : env.fastBlockExists f.fastHash f.fastNumber = true)
    (hval : env.validateFruitEngine f = none)
    (hg : mapGet s.allFruits f.fastHash = some g)
    (hcap : s.allFruits.length < cap) :
    (f.difficulty < g.difficulty → addFruit env cap s f = some (s, none)) ∧
    (f.difficulty = g.difficulty → g.hash ≤ f.hash →
      addFruit env cap s f = some (s, none)) ∧
    (f.difficulty = g.difficulty → f.hash < g.hash →
      addFruit env cap s f =
        some ({ allFruits := mapInsert s.allFruits f.fastHash f,
                fruitPending := mapInsert s.fruitPending f.fastHash f }, none)) ∧
    (g.difficulty < f.difficulty →
      addFruit env cap s f =
        some ({ allFruits := mapInsert s.allFruits f.fastHash f,
                fruitPending := mapInsert s.fruitPending f.fastHash f }, none)) := by
  have hbody : addFruit env cap s f = some (addFruitBody env cap s f) := by
    unfold addFruit
    rw [h0]
    rw [if_neg (by omega)]
  have hdup := addFruitBody_dup env cap s f g (by omega) hex hg hval
  have happ : appendFruit cap s f true =
      ({ allFruits := mapInsert s.allFruits f.fastHash f,
         fruitPending := mapInsert s.fruitPending f.fastHash f }, none) := by
    unfold appendFruit
    rw [if_neg (by omega)]
    rfl
  refine ⟨?_, ?_, ?_, ?_⟩
  · intro hlt
    rw [hbody, hdup, if_pos hlt]
  · intro heq hh
    rw [hbody, hdup, if_neg (by omega), if_pos heq, if_pos hh]
  · intro heq hh
    rw [hbody, hdup, if_neg (by omega), if_pos heq, if_neg (by omega), happ]
  · intro hlt
    rw [hbody, hdup, if_neg (by omega), if_neg (by omega), happ]

/-- C4 counterexample: at a full pool (cap 1) a strictly better fruit with the
same fast hash does NOT replace the pooled one: appendFruit rejects it with
ExceedNumber and the pool is unchanged, refuting the claimed replacement. -/
theorem addFruit_conflict_counterexample :
    gC4.difficulty < fC4.difficulty ∧
    mapGet sC4.allFruits fC4.fastHash = some gC4 ∧
    envC4.validateFruitEngine fC4 = none ∧
    addFruit envC4 1 sC4 fC4 = some (sC4, some PoolErr.exceedNumber) ∧
    mapGet sC4.fruitPending fC4.fastHash = none := by
  exact ⟨by decide, by decide, rfl, by decide, by decide⟩

/-- C4 witness: the amended theorem at a concrete pool below cap, in the
higher-difficulty branch: the new fruit replaces the pooled one and is
marked pending. -/
theorem addFruit_conflict_resolution_witness :
    addFruit envC4 5 sC4 fC4 =
      some ({ allFruits := mapInsert sC4.allFruits fC4.fastHash fC4,
              fruitPending := mapInsert sC4.fruitPending fC4.fastHash fC4 }, none) :=
  (addFruit_conflict_resolution envC4 5 sC4 fC4 gC4 rfl (by decide) rfl rfl
    (by decide) (by decide)).2.2.2 (by decide)

end SnailPool

namespace ElectionCore

/-- C6: for every election result with MinimumCommitteeNumber at least 4 (the
PBFT 3f+1 requirement noted in the source): if the drawn list exceeds the
minimum, the first minimum drawn members (flag used, type worked) become the
members and the rest (type back) the backups, with the default genesis members
appended to the backups; if at least 4 but no more than the minimum were
drawn, they all become members and the backups are exactly the defaults; with
fewer than 4 drawn, the genesis committee becomes the members. -/
theorem electCommittee_split_correct (genesisCommittee defaultMembers drawn :
    List CommitteeMember) (minimum : Nat) (hmin : 4 ≤ minimum) :
    (minimum < drawn.length →
      (electCommitteeSplit genesisCommittee defaultMembers drawn minimum).Members =
        (drawn.take minimum).map setWorked ∧
      (electCommitteeSplit genesisCommittee defaultMembers drawn minimum).Backups =
        (drawn.drop minimum).map setBack ++ defaultMembers) ∧
    (4 ≤ drawn.length → drawn.length ≤ minimum →
      (electCommitteeSplit genesisCommittee defaultMembers drawn minimum).Members =
        drawn.map setWorked ∧
      (electCommitteeSplit genesisCommittee defaultMembers drawn minimum).Backups =
        defaultMembers) ∧
    (drawn.length < 4 →
      (electCommitteeSplit genesisCommittee defaultMembers drawn minimum).Members =
        genesisCommittee ∧
      (electCommitteeSplit genesisCommittee defaultMembers drawn minimum).Backups =
        []) := by
  refine ⟨?_, ?_, ?_⟩
  · intro hlt
    simp only [electCommitteeSplit, if_pos hlt, List.length_map, List.length_take]
    rw [if_pos (by omega)]
    exact ⟨rfl, rfl⟩
  · intro h4 hle
    have hnlt : ¬ minimum < drawn.length := by omega
    simp only [electCommitteeSplit, if_neg hnlt, List.length_map]
    rw [if_pos (by omega)]
    refine ⟨rfl, ?_⟩
    simp
  · intro hlt4
    have hnlt : ¬ minimum < drawn.length := by omega
    simp only [electCommitteeSplit, if_neg hnlt, List.length_map]
    rw [if_neg (by omega)]
    refine ⟨rfl, ?_⟩
    simp

/-- C6 witness: the split theorem at six drawn members and minimum 4. -/
theorem electCommittee_split_correct_witness :
    (electCommitteeSplit [cmW 7] [cmW 8]
        [cmW 1, cmW 2, cmW 3, cmW 4, cmW 5, cmW 6] 4).Members =
      ([cmW 1, cmW 2, cmW 3, cmW 4, cmW 5, cmW 6].take 4).map setWorked ∧
    (electCommitteeSplit [cmW 7] [cmW 8]
        [cmW 1, cmW 2, cmW 3, cmW 4, cmW 5, cmW 6] 4).Backups =
      ([cmW 1, cmW 2, cmW 3, cmW 4, cmW 5, cmW 6].drop 4).map setBack ++ [cmW 8] :=
  (electCommittee_split_correct [cmW 7] [cmW 8]
    [cmW 1, cmW 2, cmW 3, cmW 4, cmW 5, cmW 6] 4 (by omega)).1 (by decide)

theorem collectWindow_agree (K : ElectFns) (g1 g2 : Nat → Option SnailBlockE) :
    ∀ (n start : Nat), (∀ m, start ≤ m → m < start + n → g1 m = g2 m) →
      collectWindow K g1 start n = collectWindow K g2 start n := by
  intro n
  induction n with
  | zero => intro start _; rfl
  | succ k ih =>
    intro start hag
    have h1 : g1 start = g2 start := hag start (Nat.le_refl _) (by omega)
    unfold collectWindow
    rw [h1]
    rw [ih (start + 1) (fun m hm1 hm2 => hag m (by omega) (by omega))]

/-- C8: the committee election is a deterministic function of the contents of
the snail window: for any two chain views that agree on every block of
[first-election-snail, last-election-snail], candidate collection, the keccak
seed, the lottery rounds and the member/backup split produce identical
election results. -/
theorem election_deterministic (K : ElectFns) (threshold maxRounds minimum : Nat)
    (genesisCommittee defaultMembers : List CommitteeMember)
    (g1 g2 : Nat → Option SnailBlockE) (b e : Nat)
    (hag : ∀ n, b ≤ n → n ≤ e → g1 n = g2 n) :
    electCommitteePipeline K threshold maxRounds minimum genesisCommittee
        defaultMembers g1 b e =
      electCommitteePipeline K threshold maxRounds minimum genesisCommittee
        defaultMembers g2 b e := by
  have hcw : collectWindow K g1 b (e + 1 - b) = collectWindow K g2 b (e + 1 - b) :=
    collectWindow_agree K g1 g2 (e + 1 - b) b (fun m h1 h2 => hag m h1 (by omega))
  have hgc : getCandinates K threshold g1 b e = getCandinates K threshold g2 b e := by
    unfold getCandinates
    rw [hcw]
  unfold electCommitteePipeline
  rw [hgc]

/-- C8 witness: the determinism theorem at two concrete chain views agreeing
on the one-block window [1, 1]. -/
theorem election_deterministic_witness :
    electCommitteePipeline fnsW 1 3 4 [cmW 7] [cmW 8] g1W 1 1 =
      electCommitteePipeline fnsW 1 3 4 [cmW 7] [cmW 8] g2W 1 1 :=
  election_deterministic fnsW 1 3 4 [cmW 7] [cmW 8] g1W g2W 1 1
    (fun n h1 h2 => by
      have hn : n = 1 := Nat.le_antisymm h2 h1
      subst hn
      rfl)

end ElectionCore

namespace ElectionGet

theorem filterTrue {α : Type} (p : α → Bool) :
    ∀ (l : List α), (∀ a ∈ l, p a = true) → l.filter p = l := by
  intro l
  induction l with
  | nil => intro _; rfl
  | cons a t ih =>
    intro h
    rw [List.filter_cons_of_pos (h a (List.mem_cons_self a t))]
    rw [ih (fun x hx => h x (List.mem_cons_of_mem a hx))]

theorem filterFalse {α : Type} (p : α → Bool) :
    ∀ (l : List α), (∀ a ∈ l, p a = false) → l.filter p = [] := by
  intro l
  induction l with
  | nil => intro _; rfl
  | cons a t ih =>
    intro h
    rw [List.filter_cons_of_neg (by simp [h a (List.mem_cons_self a t)])]
    exact ih (fun x hx => h x (List.mem_cons_of_mem a hx))

theorem takeWhile_eq_filter_of_sorted (x : Nat) :
    ∀ (l : List Nat), l.Pairwise (· ≤ ·) →
      l.takeWhile (fun n => decide (n < x)) = l.filter (fun n => decide (n < x)) := by
  intro l
  induction l with
  | nil => intro _; rfl
  | cons a t ih =>
    intro hp
    rcases List.pairwise_cons.mp hp with ⟨ha, ht⟩
    by_cases hax : a < x
    · rw [List.takeWhile_cons_of_pos (by simpa using hax),
          List.filter_cons_of_pos (by simpa using hax), ih ht]
    · rw [List.takeWhile_cons_of_neg (by simpa using hax),
          List.filter_cons_of_neg (by simpa using hax)]
      rw [filterFalse _ t (fun b hb => by
        have hab := ha b hb
        simp only [decide_eq_false_iff_not]
        omega)]

theorem getLastD_mem : ∀ (t : List Nat) (c : Nat),
    (((c :: t).getLast?).getD 0) ∈ c :: t := by
  intro t
  induction t with
  | nil => intro c; simp [List.getLast?]
  | cons d t2 ih =>
    intro c
    rw [List.getLast?_cons_cons]
    exact List.mem_cons_of_mem c (ih d)

theorem mem_le_getLastD : ∀ (l : List Nat), l.Pairwise (· ≤ ·) →
    ∀ a ∈ l, a ≤ (l.getLast?).getD 0 := by
  intro l
  induction l with
  | nil => intro _ a ha; cases ha
  | cons b t ih =>
    intro hp a ha
    rcases List.pairwise_cons.mp hp with ⟨hb, ht⟩
    cases t with
    | nil =>
      have : a = b := List.mem_singleton.mp ha
      subst this
      simp [List.getLast?]
    | cons c t2 =>
      rw [List.getLast?_cons_cons]
      rcases List.mem_cons.mp ha with h1 | hmem
      · subst h1
        exact hb _ (getLastD_mem t2 c)
      · exact ih ht a hmem

theorem replayedNums_eq_filter (c : Committee7) (fastNumber : Nat)
    (hs : c.switches.Pairwise (· ≤ ·)) :
    replayedNums c fastNumber =
      c.switches.filter (fun n => decide (n < fastNumber)) := by
  unfold replayedNums
  split
  next hlast =>
    refine (filterTrue _ c.switches (fun a ha => ?_)).symm
    have := mem_le_getLastD c.switches hs a ha
    simp only [decide_eq_true_eq]
    omega
  next hlast =>
    exact takeWhile_eq_filter_of_sorted fastNumber c.switches hs

/-- C7: with the committee's switch numbers in ascending order (they are
appended in fast-chain order), GetCommittee applied to a fast number returns
exactly the effective member set obtained by replaying the switch entries
whose block number is strictly below the fast number: a member whose latest
replayed flag is remove is excluded, a backup whose latest replayed flag is
append is included, and every other member is returned unchanged. -/
theorem getCommittee_replay (env : Nat → List SwitchVal) (c : Committee7)
    (fastNumber : Nat) (hs : c.switches.Pairwise (· ≤ ·)) :
    getCommitteeMembers env c fastNumber = getCommitteeMembersSpec env c fastNumber ∧
    (∀ m, m ∈ getCommitteeMembers env c fastNumber ↔
      ((m ∈ c.members ∧ memberKeep (effStates env c fastNumber) m = true) ∨
       (m ∈ c.backups ∧ backupKeep (effStates env c fastNumber) m = true))) := by
  have hmain : getCommitteeMembers env c fastNumber =
      getCommitteeMembersSpec env c fastNumber := by
    unfold getCommitteeMembers getCommitteeMembersSpec effStates
    split
    next hemp =>
      have hsw : c.switches = [] := by
        cases hc : c.switches with
        | nil => rfl
        | cons a t => rw [hc] at hemp; cases hemp
      rw [hsw, List.filter_nil]
      rw [filterTrue (memberKeep (applySwitches env [])) c.members (fun a _ => rfl),
          filterFalse (backupKeep (applySwitches env [])) c.backups (fun a _ => rfl),
          List.append_nil]
    next hemp =>
      rw [replayedNums_eq_filter c fastNumber hs]
  refine ⟨hmain, ?_⟩
  intro m
  rw [hmain]
  unfold getCommitteeMembersSpec
  constructor
  · intro hm
    rcases List.mem_append.mp hm with h1 | h2
    · rcases List.mem_filter.mp h1 with ⟨ha, hb⟩
      exact Or.inl ⟨ha, hb⟩
    · rcases List.mem_filter.mp h2 with ⟨ha, hb⟩
      exact Or.inr ⟨ha, hb⟩
  · intro hm
    rcases hm with ⟨ha, hb⟩ | ⟨ha, hb⟩
    · exact List.mem_append.mpr (Or.inl (List.mem_filter.mpr ⟨ha, hb⟩))
    · exact List.mem_append.mpr (Or.inr (List.mem_filter.mpr ⟨ha, hb⟩))

/-- C7 witness: the replay theorem at a concrete committee with switches at
fast blocks 1 and 3, queried at fast number 2. -/
theorem getCommittee_replay_witness :
    getCommitteeMembers envW7 cW7 2 = getCommitteeMembersSpec envW7 cW7 2 :=
  (getCommittee_replay envW7 cW7 2 (by decide)).1

end ElectionGet
